import Mathlib

/-!
# Verification of the ClinicalAnon entity-span detection and consolidation engine

Shallow embedding of the algorithmic core of the repository:

* `pii-comparison-test/engines/current_engine.py` — the `CurrentEngine` recognizers
  (`_maori_names`, `_relationship_names`) and the consolidation pass
  (`_remove_overlaps`, `_deduplicate`);
* `scripts/test_text_xlmr.py` — the subword tokenizer (`tokenize`) and the BIO tag
  decoder inside `run_ner`;
* `scripts/test_xlmr_coreml.py` — the second tokenizer implementation (`simple_tokenize`).

Python strings are modelled as `List Char` (Python strings are sequences of code
points, and all inputs considered here are plain text), Python `int` as `Int` or
`Nat` as appropriate, and Python `float` confidences as `ℚ` (written `mkRat 95 100`
for the literal `0.95`, and so on). Every confidence in the source is a short
decimal literal; the binary doubles these literals denote compare equal exactly
when the literals coincide and order exactly as the decimal values do, so the
rational model reproduces the source's confidence comparisons. Vocabularies (Python dicts used
only through `in` / `[]` / `.get`) are modelled as functions `String → Option Nat`.
Character classes of the regular expressions in the source are modelled at ASCII
scope, matching the texts the engine is exercised on.
-/

/-- Python `str.isspace` on the ASCII range: the characters `\t \n \v \f \r ' '`
that Python's `\s` and `str.split()` treat as whitespace. -/
def pyIsSpace (c : Char) : Bool :=
  c = ' ' || c = '\t' || c = '\n' || c = '\r' || c = '\x0b' || c = '\x0c'

/-- Python slice `text[a:b]` for arbitrary (possibly negative) `Int` bounds:
negative indices count from the end, and bounds are clamped to `[0, len]`. -/
def pySlice (text : List Char) (a b : Int) : List Char :=
  let n : Int := text.length
  let a' : Int := if a < 0 then max 0 (n + a) else min a n
  let b' : Int := if b < 0 then max 0 (n + b) else min b n
  (text.drop a'.toNat).take (b' - a').toNat

/-- Slice `text[a:b]` for `Nat` indices (`a ≤ b` in all uses). -/
def pySub (text : List Char) (a b : Nat) : List Char :=
  (text.drop a).take (b - a)

/-- A word character for the regex `\b` boundary, ASCII scope: `[A-Za-z0-9_]`. -/
def isWordChar (c : Char) : Bool :=
  c.isAlpha || c.isDigit || c = '_'

/-- The regex word boundary `\b` holds at position `p` of `text` iff exactly one of
the character before `p` and the character at `p` is a word character. -/
def isWordBoundary (text : List Char) (p : Nat) : Bool :=
  let before := if h : 0 < p ∧ p - 1 < text.length then isWordChar (text.get ⟨p - 1, h.2⟩) else false
  let after := if h : p < text.length then isWordChar (text.get ⟨p, h⟩) else false
  before != after

/-! ## Data model: `DetectedEntity` (current_engine.py lines 15–35) -/

/-- `EntityType` enum of current_engine.py. -/
inductive EntityType where
  | PERSON | PERSON_CLIENT | PERSON_PROVIDER | PERSON_OTHER
  | DATE | LOCATION | ORGANIZATION | IDENTIFIER | CONTACT
deriving DecidableEq

/-- The `DetectedEntity` dataclass. The Python field `end` is called `end_` here
(`end` is a Lean keyword). -/
structure DetectedEntity where
  text : String
  entity_type : EntityType
  start : Int
  end_ : Int
  confidence : ℚ
  source : String
deriving DecidableEq

/-! ## Consolidator (current_engine.py `_remove_overlaps`, `_deduplicate`) -/

/-- The overlap test of `_remove_overlaps` line 404:
`not (current.end <= other.start or other.end <= current.start)`. -/
def overlapsCond (current other : DetectedEntity) : Prop :=
  ¬ (current.end_ ≤ other.start ∨ other.end_ ≤ current.start)

instance (c o : DetectedEntity) : Decidable (overlapsCond c o) := by
  unfold overlapsCond; infer_instance

/-- The inner `while j < len(entities)` loop of `_remove_overlaps` (lines 400–412):
walks the candidates after `current`, removing (and possibly adopting as the new
`current`) every candidate overlapping `current`, keeping the skipped ones in order.
Returns the final `current` together with the surviving candidates. -/
def overlapScan (current : DetectedEntity) : List DetectedEntity → DetectedEntity × List DetectedEntity
  | [] => (current, [])
  | other :: rest =>
    if overlapsCond current other then
      let current' :=
        if current.confidence < other.confidence then other
        else if other.confidence = current.confidence ∧ current.text.length < other.text.length then other
        else current
      overlapScan current' rest
    else
      let res := overlapScan current rest
      (res.1, other :: res.2)

/-- The outer `while i < len(entities)` loop of `_remove_overlaps` (lines 392–415):
resolve the head against all later candidates, emit the winner, continue with the
survivors. `fuel` bounds the number of iterations (the scan never grows the list,
so the list's length is enough fuel, supplied by `overlapSweep`). -/
def overlapSweepAux : Nat → List DetectedEntity → List DetectedEntity
  | _, [] => []
  | 0, _ :: _ => []
  | fuel + 1, e :: rest =>
    let res := overlapScan e rest
    res.1 :: overlapSweepAux fuel res.2

/-- The outer loop of `_remove_overlaps`, at full fuel. -/
def overlapSweep (l : List DetectedEntity) : List DetectedEntity :=
  overlapSweepAux l.length l

/-- The sort key of `_remove_overlaps` line 390: `key=lambda e: (e.start, -e.end)`,
as a total preorder (start ascending, end descending). -/
def entKeyLE (a b : DetectedEntity) : Prop :=
  a.start < b.start ∨ (a.start = b.start ∧ b.end_ ≤ a.end_)

instance (a b : DetectedEntity) : Decidable (entKeyLE a b) := by
  unfold entKeyLE; infer_instance

instance : IsTotal DetectedEntity entKeyLE where
  total a b := by unfold entKeyLE; omega

instance : IsTrans DetectedEntity entKeyLE where
  trans a b c := by unfold entKeyLE; omega

/-- `_remove_overlaps` (lines 384–417): a stable sort by `(start, -end)` followed by
the overlap-resolution sweep. (Python's `list.sort` is stable; `insertionSort`
realizes the same stable sort.) -/
def remove_overlaps (entities : List DetectedEntity) : List DetectedEntity :=
  overlapSweep (entities.insertionSort entKeyLE)

/-- Python `str.lower()` at ASCII scope. -/
def pyLower (s : String) : String :=
  String.mk (s.toList.map Char.toLower)

/-- The deduplication key of `_deduplicate` line 425: `(entity.text.lower(), entity.start, entity.end)`. -/
def entKey (e : DetectedEntity) : String × Int × Int :=
  (pyLower e.text, e.start, e.end_)

/-- The loop of `_deduplicate` (lines 419–430) with the `seen` set modelled as the
list of keys inserted so far. -/
def dedupAux (seen : List (String × Int × Int)) : List DetectedEntity → List DetectedEntity
  | [] => []
  | e :: rest =>
    if entKey e ∈ seen then dedupAux seen rest
    else e :: dedupAux (entKey e :: seen) rest

/-- `_deduplicate` (lines 419–430). -/
def deduplicate (entities : List DetectedEntity) : List DetectedEntity :=
  dedupAux [] entities

/-- The Consolidator: `_remove_overlaps` then `_deduplicate`, as called at the end
of `CurrentEngine.detect` (lines 141–143). -/
def consolidate (entities : List DetectedEntity) : List DetectedEntity :=
  deduplicate (remove_overlaps entities)

/-! ## Recognizer configuration (current_engine.py `__init__`, lines 53–114) -/

/-- `self.common_words` (lines 53–76). Membership-only set, modelled as a list. -/
def commonWords : List String :=
  ["the", "a", "an",
   "and", "but", "or", "nor", "for", "yet", "so",
   "in", "on", "at", "to", "from", "with", "by", "of", "about",
   "he", "she", "it", "they", "we", "you", "i",
   "him", "her", "them", "us", "me",
   "his", "its", "their", "our", "your", "my",
   "is", "was", "are", "were", "be", "been", "being",
   "have", "has", "had", "do", "does", "did",
   "this", "that", "these", "those",
   "when", "where", "what", "which", "who", "why", "how",
   "patient", "treatment", "therapy", "care", "health",
   "medical", "clinical", "hospital", "clinic", "doctor",
   "mother", "father", "sister", "brother", "son", "daughter",
   "wife", "husband", "partner", "friend", "family", "whanau"]

/-- `self.maori_first_names` (lines 79–86). -/
def maoriFirstNames : List String :=
  ["Wiremu", "Hemi", "Pita", "Rawiri", "Mikaere", "Tane", "Rangi",
   "Tamati", "Hohepa", "Aperahama", "Timoti", "Hone", "Paora",
   "Aroha", "Kiri", "Mere", "Hana", "Anahera", "Moana", "Ngaire",
   "Whetu", "Kahu", "Ataahua", "Hinewai", "Hine", "Marama", "Ariana"]

/-- `self.maori_last_names` (lines 88–91). -/
def maoriLastNames : List String :=
  ["Ngata", "Te Ao", "Tawhiri", "Wairua", "Takiri",
   "Parata", "Ngati", "Whaanga", "Eruera"]

/-- `self.relationship_words` (lines 94–108). Python iterates this `set` in an
unspecified order; the source-literal order is used here (on every input considered
in this development at most one trigger matches, so the order does not affect the
stated results). -/
def relationshipWords : List String :=
  ["mother", "father", "sister", "brother", "son", "daughter",
   "grandmother", "grandfather", "grandma", "grandpa",
   "aunt", "uncle", "cousin", "niece", "nephew",
   "stepmother", "stepfather", "stepsister", "stepbrother",
   "whanau", "whangai",
   "wife", "husband", "partner", "spouse", "fiance", "fiancee",
   "boyfriend", "girlfriend", "ex-wife", "ex-husband",
   "friend", "flatmate", "roommate", "colleague", "coworker",
   "neighbor", "neighbour", "mate", "buddy"]

/-- `self.maori_false_positives` (lines 111–114). -/
def maoriFalsePositives : List String :=
  ["Where", "When", "What", "Thing", "Something", "Anything",
   "Whither", "Whether", "Whence"]

/-! ## Dictionary pass of `_maori_names` (lines 185–205) -/

/-- Python `str.split()`: split on whitespace runs, discarding empty pieces.
`fuel` bounds the iterations; every step consumes at least one character, so the
text's length is enough fuel (supplied by `pySplit`). -/
def pySplitAux : Nat → List Char → List (List Char)
  | _, [] => []
  | 0, _ :: _ => []
  | fuel + 1, c :: rest =>
    if pyIsSpace c then pySplitAux fuel rest
    else
      let w := (c :: rest).takeWhile (fun x => !pyIsSpace x)
      w :: pySplitAux fuel ((c :: rest).drop w.length)

/-- Python `str.split()`, at full fuel. -/
def pySplit (text : List Char) : List (List Char) :=
  pySplitAux text.length text

/-- The characters stripped by `word.strip(".,;:!?\"'()")` on line 190. -/
def stripChars : List Char := ".,;:!?\"'()".toList

/-- Python `str.strip(chars)`: remove leading and trailing characters in `chars`. -/
def pyStrip (chars : List Char) (w : List Char) : List Char :=
  ((w.dropWhile (fun c => chars.contains c)).reverse.dropWhile (fun c => chars.contains c)).reverse

/-- Python `text.find(pat, from)` / `re.search(re.escape(pat), suffix)`: the least
index `i ≥ from` at which `pat` occurs as a contiguous sublist, if any. `fuel`
bounds the candidate positions still to try (supplied by `findFrom`). -/
def findFromAux (text pat : List Char) : Nat → Nat → Option Nat
  | 0, _ => none
  | fuel + 1, start =>
    if start ≤ text.length then
      if pat.isPrefixOf (text.drop start) then some start
      else findFromAux text pat fuel (start + 1)
    else none

/-- Substring search from `start`, at full fuel. -/
def findFrom (text pat : List Char) (start : Nat) : Option Nat :=
  findFromAux text pat (text.length + 1 - start) start

/-- The dictionary-lookup loop of `_maori_names` (lines 186–205): for each
whitespace-separated word, strip punctuation, test membership in the name
dictionaries, locate the cleaned word in the unscanned suffix `text[current_pos:]`,
and advance `current_pos` past the word (`text.find(word, current_pos) + len(word)`,
which is `len(word) - 1` when `find` returns `-1`). -/
def maoriDictPass (text : List Char) : List (List Char) → Nat → List DetectedEntity
  | [], _ => []
  | word :: ws, currentPos =>
    let cleanWord := pyStrip stripChars word
    let here :=
      if maoriFirstNames.contains (String.mk cleanWord)
          || maoriLastNames.contains (String.mk cleanWord) then
        match findFrom (text.drop currentPos) cleanWord 0 with
        | some idx =>
          [{ text := String.mk cleanWord, entity_type := EntityType.PERSON_OTHER,
             start := (currentPos + idx : Nat), end_ := (currentPos + idx + cleanWord.length : Nat),
             confidence := mkRat 95 100, source := "current_maori_dict" }]
        | none => []
      else []
    let currentPos' :=
      match findFrom text word currentPos with
      | some i => i + word.length
      | none => word.length - 1
    here ++ maoriDictPass text ws currentPos'

/-! ## Phonetic pass of `_maori_names` (lines 207–225)

The pattern is `\b[A-Z][a-z]*(?:wh|ng)[a-z]+|\b[A-Z][aeiouAEIOU]{2,}[a-z]*\b`,
matched with `re.finditer` (leftmost scan, alternative 1 preferred, greedy
quantifiers with backtracking). Each quantifier below is realized by trying the
longest extent first and backtracking downwards, exactly as the regex engine does. -/

/-- Length of the maximal `[a-z]` run at position `p`. -/
def lowerRun (text : List Char) (p : Nat) : Nat :=
  ((text.drop p).takeWhile (fun c => c.isLower)).length

/-- Length of the maximal `[aeiouAEIOU]` run at position `p`. -/
def vowelRun (text : List Char) (p : Nat) : Nat :=
  ((text.drop p).takeWhile (fun c => "aeiouAEIOU".toList.contains c)).length

/-- Whether the two characters `a b` occur at positions `p, p+1`. -/
def twoAt (text : List Char) (p : Nat) (a b : Char) : Bool :=
  match text.drop p with
  | x :: y :: _ => x = a && y = b
  | _ => false

/-- Backtracking search for `(?:wh|ng)[a-z]+` after `[A-Z][a-z]*`: with `base` just
after the capital, try `[a-z]*` extents `k, k-1, …, 0`; succeed at the first `k`
where `wh` or `ng` follows with at least one more lowercase letter, the final
`[a-z]+` being greedy. Returns the match end. -/
def phonAFind (text : List Char) (base : Nat) : Nat → Option Nat
  | 0 =>
    if (twoAt text base 'w' 'h' || twoAt text base 'n' 'g') && lowerRun text (base + 2) ≥ 1 then
      some (base + 2 + lowerRun text (base + 2))
    else none
  | k + 1 =>
    if (twoAt text (base + (k + 1)) 'w' 'h' || twoAt text (base + (k + 1)) 'n' 'g')
        && lowerRun text (base + (k + 1) + 2) ≥ 1 then
      some (base + (k + 1) + 2 + lowerRun text (base + (k + 1) + 2))
    else phonAFind text base k

/-- First alternative `\b[A-Z][a-z]*(?:wh|ng)[a-z]+` at position `p`. -/
def matchPhonA (text : List Char) (p : Nat) : Option Nat :=
  if isWordBoundary text p && (text.getD p ' ').isUpper then
    phonAFind text (p + 1) (lowerRun text (p + 1))
  else none

/-- Backtracking search for the trailing `[a-z]*\b` of the second alternative:
with `q` just after the vowel run, try `[a-z]*` extents `l, l-1, …, 0` and succeed
at the first extent ending on a word boundary. -/
def phonBTail (text : List Char) (q : Nat) : Nat → Option Nat
  | 0 => if isWordBoundary text q then some q else none
  | l + 1 =>
    if isWordBoundary text (q + (l + 1)) then some (q + (l + 1))
    else phonBTail text q l

/-- Backtracking over the `{2,}` vowel quantifier: try `m, m-1, …, 2` vowels. -/
def phonBFind (text : List Char) (p : Nat) : Nat → Option Nat
  | 0 => none
  | 1 => none
  | m + 2 =>
    let q := p + 1 + (m + 2)
    match phonBTail text q (lowerRun text q) with
    | some e => some e
    | none => phonBFind text p (m + 1)

/-- Second alternative `\b[A-Z][aeiouAEIOU]{2,}[a-z]*\b` at position `p`. -/
def matchPhonB (text : List Char) (p : Nat) : Option Nat :=
  if isWordBoundary text p && (text.getD p ' ').isUpper then
    phonBFind text p (vowelRun text (p + 1))
  else none

/-- `re.finditer` over the phonetic pattern: scan start positions left to right,
preferring alternative 1, continuing after each match end (never before the next
position, per `finditer`'s empty-match rule). Returns `(start, end)` pairs. -/
def phonFinditerAux (text : List Char) : Nat → Nat → List (Nat × Nat)
  | 0, _ => []
  | fuel + 1, p =>
    if p < text.length then
      match matchPhonA text p with
      | some e => (p, e) :: phonFinditerAux text fuel (max e (p + 1))
      | none =>
        match matchPhonB text p with
        | some e => (p, e) :: phonFinditerAux text fuel (max e (p + 1))
        | none => phonFinditerAux text fuel (p + 1)
    else []

/-- `re.finditer` over the phonetic pattern, at full fuel (the scan position
advances by at least one per iteration, so the text's length is enough fuel). -/
def phonFinditer (text : List Char) : List (Nat × Nat) :=
  phonFinditerAux text text.length 0

/-- The phonetic loop of `_maori_names` (lines 208–225): skip matches in the
false-positive set or already present in the name dictionaries. -/
def maoriPhonetic (text : List Char) : List DetectedEntity :=
  (phonFinditer text).filterMap fun pe =>
    let w := String.mk (pySub text pe.1 pe.2)
    if maoriFalsePositives.contains w then none
    else if maoriFirstNames.contains w || maoriLastNames.contains w then none
    else some { text := w, entity_type := EntityType.PERSON_OTHER,
                start := (pe.1 : Nat), end_ := (pe.2 : Nat),
                confidence := mkRat 6 10, source := "current_maori_phonetic" }

/-- `_maori_names` (lines 181–227): dictionary pass then phonetic pass. -/
def maori_names (text : List Char) : List DetectedEntity :=
  maoriDictPass text (pySplit text) 0 ++ maoriPhonetic text

/-! ## `_relationship_names` (current_engine.py lines 229–251)

For each trigger word the pattern `\b{trigger}\s+([A-Z][a-z]+(?:\s+[A-Z][a-z]+)?)`
is matched with `re.IGNORECASE`. Under `IGNORECASE` the classes `[A-Z]` and `[a-z]`
both match any ASCII letter, so a "name word" is any run of at least two letters.
The greedy quantifiers admit no non-trivial backtracking here: `\s+` must cover the
whole whitespace run (a letter can never match `\s`), `[a-z]+` the whole letter run,
and the optional group matches exactly when a whitespace run followed by a run of at
least two letters follows the first name word. -/

/-- Length of the maximal ASCII-letter run at position `p`. -/
def letterRun (text : List Char) (p : Nat) : Nat :=
  ((text.drop p).takeWhile (fun c => c.isAlpha)).length

/-- Length of the maximal whitespace (`\s`) run at position `p`. -/
def wsRun (text : List Char) (p : Nat) : Nat :=
  ((text.drop p).takeWhile (fun c => pyIsSpace c)).length

/-- Case-insensitive literal match of `pat` against `suffix` (ASCII fold),
modelling an `IGNORECASE` literal. -/
def ciPrefix : List Char → List Char → Bool
  | _, [] => true
  | [], _ :: _ => false
  | c :: cs, p :: ps => c.toLower = p.toLower && ciPrefix cs ps

/-- Attempt to match `\b{trigger}\s+([A-Z][a-z]+(?:\s+[A-Z][a-z]+)?)` (IGNORECASE)
at position `p`; on success returns `(group start, group end, match end)` —
`match.start(1)`, `match.end(1)` and the end of the whole match. -/
def matchRel (text trigger : List Char) (p : Nat) : Option (Nat × Nat × Nat) :=
  if isWordBoundary text p && ciPrefix (text.drop p) trigger then
    let q := p + trigger.length
    let w := wsRun text q
    if w = 0 then none
    else
      let r := q + w
      let L1 := letterRun text r
      if L1 < 2 then none
      else
        let e1 := r + L1
        let w2 := wsRun text e1
        let L2 := letterRun text (e1 + w2)
        if 0 < w2 ∧ 2 ≤ L2 then some (r, e1 + w2 + L2, e1 + w2 + L2)
        else some (r, e1, e1)
  else none

/-- `re.finditer` for one trigger's relationship pattern: leftmost scan, continue
after each match end. Returns the `(group start, group end)` pairs. -/
def relFinditerAux (text trigger : List Char) : Nat → Nat → List (Nat × Nat)
  | 0, _ => []
  | fuel + 1, p =>
    if p < text.length then
      match matchRel text trigger p with
      | some g => (g.1, g.2.1) :: relFinditerAux text trigger fuel (max g.2.2 (p + 1))
      | none => relFinditerAux text trigger fuel (p + 1)
    else []

/-- `re.finditer` for one trigger, at full fuel. -/
def relFinditer (text trigger : List Char) : List (Nat × Nat) :=
  relFinditerAux text trigger text.length 0

/-- `_relationship_names` (lines 229–251): for each trigger word, emit the captured
name portion with confidence 0.9 unless its lowercase form is a common word. -/
def relationship_names (text : List Char) : List DetectedEntity :=
  (relationshipWords.map fun trigger =>
    (relFinditer text trigger.toList).filterMap fun g =>
      let name := pySub text g.1 g.2
      if commonWords.contains (String.mk (name.map Char.toLower)) then none
      else some { text := String.mk name, entity_type := EntityType.PERSON_OTHER,
                  start := (g.1 : Nat), end_ := (g.2 : Nat),
                  confidence := mkRat 9 10, source := "current_relationship" }).flatten

/-! ## Subword tokenizer of scripts/test_text_xlmr.py (`tokenize`, lines 24–79)

The vocabulary (a JSON dict used only via `in`, `[]` and `.get`) is modelled as a
function `String → Option Nat`. Tokens are `(id, char_start, char_end)` triples. -/

/-- A vocabulary: piece → id. -/
abbrev Vocab := String → Option Nat

/-- The word-boundary marker `"▁"` (U+2581). -/
def markerChar : Char := '▁'

/-- `CLS_ID, SEP_ID, PAD_ID = 0, 2, 1` (line 17). -/
def CLS_ID : Nat := 0

def SEP_ID : Nat := 2

def PAD_ID : Nat := 1

/-- `MAX_LEN = 512` (line 18). -/
def MAX_LEN : Nat := 512

/-- The greedy `for length in range(len(prefixed), 0, -1)` loop (lines 49–59 /
86–103): try prefixes of `prefixed` from length `n` down to 1, returning the first
`(length, id)` whose piece is in the vocabulary. -/
def greedyLookup (vocab : Vocab) (prefixed : List Char) : Nat → Option (Nat × Nat)
  | 0 => none
  | n + 1 =>
    match vocab (String.mk (prefixed.take (n + 1))) with
    | some id => some (n + 1, id)
    | none => greedyLookup vocab prefixed n

/-- The `while remaining:` loop of `tokenize` (lines 46–69), for one word starting
at character offset `off`, with `nTok` the current `len(input_ids)`. Produces the
word's tokens and the final `len(input_ids)`; stops early (like the
`if len(input_ids) >= MAX_LEN - 1: break` on line 68) once the budget is hit. -/
def tokenizeWordAux (vocab : Vocab) (unkId : Nat) :
    Nat → List Char → Nat → Bool → Nat → List (Nat × Int × Int) × Nat
  | _, [], _, _, nTok => ([], nTok)
  | 0, _ :: _, _, _, nTok => ([], nTok)
  | fuel + 1, c :: rest, off, first, nTok =>
    let prefixed := if first then markerChar :: c :: rest else c :: rest
    match greedyLookup vocab prefixed prefixed.length with
    | some li =>
      let actual := if first then li.1 - 1 else li.1
      let tok := (li.2, (off : Int), ((off + actual : Nat) : Int))
      if MAX_LEN - 1 ≤ nTok + 1 then ([tok], nTok + 1)
      else if 0 < actual then
        let res := tokenizeWordAux vocab unkId fuel ((c :: rest).drop actual) (off + actual) false (nTok + 1)
        (tok :: res.1, res.2)
      else ([tok], nTok + 1)
    | none =>
      let piece := if first then String.mk [markerChar, c] else String.mk [c]
      let id := (vocab piece).getD ((vocab (String.mk [c])).getD unkId)
      let tok := (id, (off : Int), ((off + 1 : Nat) : Int))
      if MAX_LEN - 1 ≤ nTok + 1 then ([tok], nTok + 1)
      else
        let res := tokenizeWordAux vocab unkId fuel rest (off + 1) false (nTok + 1)
        (tok :: res.1, res.2)

/-- The `while remaining:` loop, at full fuel (every iteration consumes at least
one character, or ends the loop, so the word's length is enough fuel). -/
def tokenizeWord (vocab : Vocab) (unkId : Nat) (rem : List Char) (off : Nat)
    (first : Bool) (nTok : Nat) : List (Nat × Int × Int) × Nat :=
  tokenizeWordAux vocab unkId rem.length rem off first nTok

/-- The outer `while i < len(text)` loop of `tokenize` (lines 30–72): skip
whitespace, find the word end (`while j < len(text) and not text[j].isspace()`),
tokenize the word, stop after a word once `len(input_ids) >= MAX_LEN - 1`. -/
def tokenizeLoopAux (vocab : Vocab) (unkId : Nat) (text : List Char) :
    Nat → Nat → Nat → List (Nat × Int × Int) × Nat
  | 0, _, nTok => ([], nTok)
  | fuel + 1, i, nTok =>
    if h : i < text.length then
      if pyIsSpace (text.get ⟨i, h⟩) then tokenizeLoopAux vocab unkId text fuel (i + 1) nTok
      else
        let word := (text.drop i).takeWhile (fun c => !pyIsSpace c)
        let res := tokenizeWord vocab unkId word i true nTok
        if MAX_LEN - 1 ≤ res.2 then (res.1, res.2)
        else
          let rest := tokenizeLoopAux vocab unkId text fuel (i + word.length) res.2
          (res.1 ++ rest.1, rest.2)
    else ([], nTok)

/-- The outer loop of `tokenize`, at full fuel (the position advances by at least
one per iteration, so the text's length is enough fuel). -/
def tokenizeLoop (vocab : Vocab) (unkId : Nat) (text : List Char) (i : Nat)
    (nTok : Nat) : List (Nat × Int × Int) × Nat :=
  tokenizeLoopAux vocab unkId text (text.length - i) i nTok

/-- `tokenize(text, vocab)` (lines 24–79): returns `(input_ids, attention_mask,
token_to_char)`, each padded/truncated to `MAX_LEN`. The unknown id defaults to 3
(`vocab.get("<unk>", 3)`, line 26). -/
def tokenize (vocab : Vocab) (text : List Char) :
    List Nat × List Nat × List (Int × Int) :=
  let unkId := (vocab "<unk>").getD 3
  let res := tokenizeLoop vocab unkId text 0 1
  let input_ids := CLS_ID :: res.1.map (fun t => t.1) ++ [SEP_ID]
  let token_to_char := ((-1 : Int), (-1 : Int)) :: res.1.map (fun t => t.2) ++ [((-1 : Int), (-1 : Int))]
  let attention_mask := List.replicate input_ids.length 1 ++ List.replicate (MAX_LEN - input_ids.length) 0
  let ids := input_ids ++ List.replicate (MAX_LEN - input_ids.length) PAD_ID
  let t2c := token_to_char ++ List.replicate (MAX_LEN - token_to_char.length) ((-1 : Int), (-1 : Int))
  (ids.take MAX_LEN, attention_mask.take MAX_LEN, t2c.take MAX_LEN)

/-- The reconstruction of claim C2: concatenate `text[char_start:char_end]` over
the non-structural tokens (`char_start ≥ 0`) of a token-to-char map. -/
def reconstructTokens (text : List Char) (t2c : List (Int × Int)) : List Char :=
  ((t2c.filter (fun p => 0 ≤ p.1)).map (fun p => pySlice text p.1 p.2)).flatten

/-! ## Second tokenizer: scripts/test_xlmr_coreml.py (`simple_tokenize`, lines 46–129) -/

/-- The word-splitting loop of `simple_tokenize` (lines 54–72): build
`(word, word_start, word_end)` triples, tracking `current_word_start` (`-1` when no
word is open) and `current_word`. -/
def buildWordsAux (text : List Char) :
    Nat → Nat → Int → List Char → List (List Char × Int × Int)
  | 0, _, curStart, cur =>
    if cur = [] then [] else [(cur, curStart, ((text.length : Nat) : Int))]
  | fuel + 1, i, curStart, cur =>
    if h : i < text.length then
      let c := text.get ⟨i, h⟩
      if pyIsSpace c then
        if cur = [] then buildWordsAux text fuel (i + 1) curStart []
        else (cur, curStart, ((i : Nat) : Int)) :: buildWordsAux text fuel (i + 1) (-1) []
      else
        let curStart' := if curStart = -1 then ((i : Nat) : Int) else curStart
        buildWordsAux text fuel (i + 1) curStart' (cur ++ [c])
    else if cur = [] then [] else [(cur, curStart, ((text.length : Nat) : Int))]

/-- The word-splitting loop of `simple_tokenize`, at full fuel. -/
def buildWords (text : List Char) : List (List Char × Int × Int) :=
  buildWordsAux text text.length 0 (-1) []

/-- The inner `while remaining:` loop of `simple_tokenize` (lines 80–114), for one
word; unlike `tokenize` there is no per-token budget check. -/
def simpleWordAux (vocab : Vocab) (unkId : Nat) :
    Nat → List Char → Int → Bool → List (Nat × Int × Int)
  | _, [], _, _ => []
  | 0, _ :: _, _, _ => []
  | fuel + 1, c :: rest, off, first =>
    let prefixed := if first then markerChar :: c :: rest else c :: rest
    match greedyLookup vocab prefixed prefixed.length with
    | some li =>
      let actual := if first then li.1 - 1 else li.1
      let tok := (li.2, off, off + (actual : Nat))
      if 0 < actual then
        tok :: simpleWordAux vocab unkId fuel ((c :: rest).drop actual) (off + (actual : Nat)) false
      else [tok]
    | none =>
      let piece := if first then String.mk [markerChar, c] else String.mk [c]
      let id := (vocab piece).getD ((vocab (String.mk [c])).getD unkId)
      (id, off, off + 1) :: simpleWordAux vocab unkId fuel rest (off + 1) false

/-- The inner word loop of `simple_tokenize`, at full fuel. -/
def simpleWord (vocab : Vocab) (unkId : Nat) (rem : List Char) (off : Int)
    (first : Bool) : List (Nat × Int × Int) :=
  simpleWordAux vocab unkId rem.length rem off first

/-- The `for word, word_start, word_end in words:` loop of `simple_tokenize`
(lines 75–118), with the budget checked only after each whole word
(`if len(input_ids) >= max_length - 1: break`, line 117). -/
def simpleOuter (vocab : Vocab) (unkId : Nat) (maxLength : Nat) :
    List (List Char × Int × Int) → Nat → List (Nat × Int × Int) × Nat
  | [], nTok => ([], nTok)
  | (word, wstart, _) :: ws, nTok =>
    let toks := simpleWord vocab unkId word wstart true
    let nTok' := nTok + toks.length
    if maxLength - 1 ≤ nTok' then (toks, nTok')
    else
      let rest := simpleOuter vocab unkId maxLength ws nTok'
      (toks ++ rest.1, rest.2)

/-- `simple_tokenize(text, vocab, max_length)` (lines 46–129). The unknown id
defaults to 0 (`vocab.get("<unk>", 0)`, line 49). -/
def simple_tokenize (vocab : Vocab) (text : List Char) (maxLength : Nat) :
    List Nat × List Nat × List (Int × Int) :=
  let unkId := (vocab "<unk>").getD 0
  let words := buildWords text
  let res := simpleOuter vocab unkId maxLength words 1
  let input_ids := CLS_ID :: res.1.map (fun t => t.1) ++ [SEP_ID]
  let token_to_char := ((-1 : Int), (-1 : Int)) :: res.1.map (fun t => t.2) ++ [((-1 : Int), (-1 : Int))]
  let attention_mask := List.replicate input_ids.length 1 ++ List.replicate (maxLength - input_ids.length) 0
  let ids := input_ids ++ List.replicate (maxLength - input_ids.length) PAD_ID
  let t2c := token_to_char ++ List.replicate (maxLength - token_to_char.length) ((-1 : Int), (-1 : Int))
  (ids.take maxLength, attention_mask.take maxLength, t2c.take maxLength)

/-! ## Tag decoder of scripts/test_text_xlmr.py (`run_ner`, lines 97–122) -/

/-- An entity dict of `run_ner`: keys `type`, `start`, `end`, `text`
(`end` is again renamed `end_`). -/
structure NerSpan where
  type_ : String
  start : Int
  end_ : Int
  text : String
deriving DecidableEq

/-- `ID2LABEL.get(pred, "O")` (line 16 / line 103). -/
def ID2LABEL (pred : Nat) : String :=
  ["O", "B-DATE", "I-DATE", "B-PER", "I-PER", "B-ORG", "I-ORG", "B-LOC", "I-LOC"].getD pred "O"

/-- Python `label.startswith(p)`, via the code-point list. -/
def strStarts (s p : String) : Bool :=
  decide (s.toList.take p.toList.length = p.toList)

/-- Python `label[2:]`. -/
def strDrop2 (s : String) : String :=
  String.mk (s.toList.drop 2)

/-- One iteration of the decoding loop of `run_ner` (lines 100–118), for a token
that passed the attention-mask check: given the open span (if any) and the token's
predicted label id and `(char_start, char_end)`, return the new open span and the
entities emitted by this step. -/
def nerStep (text : List Char) (current : Option NerSpan) (pred : Nat)
    (cs ce : Int) : Option NerSpan × List NerSpan :=
  let label := ID2LABEL pred
  if strStarts label "B-" then
    let emitted := match current with | some c => [c] | none => []
    (some { type_ := strDrop2 label, start := cs, end_ := ce,
            text := if 0 ≤ cs then String.mk (pySlice text cs ce) else "" }, emitted)
  else if strStarts label "I-" then
    match current with
    | some c =>
      if 0 < ce then
        (some { type_ := c.type_, start := c.start, end_ := ce,
                text := String.mk (pySlice text c.start ce) }, [])
      else (some c, [])
    | none => (none, [])
  else
    match current with
    | some c => (none, [c])
    | none => (none, [])

/-- The decoding loop of `run_ner` (lines 98–121) over `(pred, mask, (cs, ce))`
rows: break at the first mask-0 row, process the rest with `nerStep`, and flush any
still-open span at the end (also after a break — the flush on lines 119–120 runs
either way). -/
def nerLoop (text : List Char) (current : Option NerSpan) :
    List (Nat × Nat × Int × Int) → List NerSpan
  | [] => match current with | some c => [c] | none => []
  | (pred, mask, cs, ce) :: rest =>
    if mask = 0 then match current with | some c => [c] | none => []
    else
      let step := nerStep text current pred cs ce
      step.2 ++ nerLoop text step.1 rest

/-- The entity-extraction part of `run_ner` (lines 97–122), as a function of the
classifier's per-token predictions, the attention mask and the token-to-char map. -/
def decodeEntities (text : List Char) (rows : List (Nat × Nat × Int × Int)) : List NerSpan :=
  nerLoop text none rows

/-! ## Proof-internal auxiliary definitions -/

/-- The token ranges of `toks` tile the character interval `[o, e)` contiguously
with nonempty pieces (used to reason about the tokenizers' offset bookkeeping). -/
def Tiling : List (Nat × Int × Int) → Nat → Nat → Prop
  | [], o, e => o = e
  | t :: ts, o, e => ∃ m : Nat, t.2.1 = (o : Int) ∧ t.2.2 = (m : Int) ∧ o < m ∧ m ≤ e ∧ Tiling ts m e

/-- Specification form of the word decomposition shared by both tokenizers:
the whitespace-separated words of `text` from position `i` on, with their
`(start, end)` positions. -/
def wordsSpecAux (text : List Char) : Nat → Nat → List (List Char × Int × Int)
  | 0, _ => []
  | fuel + 1, i =>
    if h : i < text.length then
      if pyIsSpace (text.get ⟨i, h⟩) then wordsSpecAux text fuel (i + 1)
      else
        let w := (text.drop i).takeWhile (fun c => !pyIsSpace c)
        (w, ((i : Nat) : Int), ((i + w.length : Nat) : Int)) :: wordsSpecAux text fuel (i + w.length)
    else []

/-- The word decomposition from position `i`, at full fuel. -/
def wordsSpec (text : List Char) (i : Nat) : List (List Char × Int × Int) :=
  wordsSpecAux text (text.length - i) i

/-! ## Concrete instances used in witnesses and counterexamples -/

/-- A vocabulary containing only the bare word-boundary marker `"▁"`. -/
def vocabMarkerOnly : Vocab := fun s => if s = "▁" then some 5 else none

/-- The empty vocabulary. -/
def vocabEmpty : Vocab := fun _ => none

/-- A small vocabulary containing the piece `"▁ab"` and `"<unk>"`
(and not the bare marker `"▁"`). -/
def vocabSmall : Vocab :=
  fun s => if s = "▁ab" then some 7 else if s = "<unk>" then some 4 else none

/-- Concrete overlapping equal-confidence spans for the C5 witness. -/
def wSpanA : DetectedEntity := ⟨"abc", EntityType.PERSON_OTHER, 0, 3, mkRat 1 2, "x"⟩

/-- Second span of the C5 witness pair (longer text, different type/source). -/
def wSpanB : DetectedEntity := ⟨"bcdef", EntityType.DATE, 1, 6, mkRat 1 2, "y"⟩

/-! # Theorems -/

/-! ## C6: the "My mother Aroha Ngata called" scenario -/

/-- **C6.** On `"My mother Aroha Ngata called"`, `_maori_names` yields exactly the
spans `"Aroha"` (10–15) and `"Ngata"` (16–21), each with confidence 0.95 (the
phonetic pass contributes nothing); `_relationship_names` yields exactly the single
span `"Aroha Ngata"` (10–21) with confidence 0.9, overlapping both; and
consolidating these candidates yields exactly the two 0.95 dictionary spans. -/
theorem c6_aroha_ngata_scenario :
    maori_names "My mother Aroha Ngata called".toList =
      [⟨"Aroha", EntityType.PERSON_OTHER, 10, 15, mkRat 95 100, "current_maori_dict"⟩,
       ⟨"Ngata", EntityType.PERSON_OTHER, 16, 21, mkRat 95 100, "current_maori_dict"⟩] ∧
    relationship_names "My mother Aroha Ngata called".toList =
      [⟨"Aroha Ngata", EntityType.PERSON_OTHER, 10, 21, mkRat 9 10, "current_relationship"⟩] ∧
    overlapsCond ⟨"Aroha Ngata", EntityType.PERSON_OTHER, 10, 21, mkRat 9 10, "current_relationship"⟩
      ⟨"Aroha", EntityType.PERSON_OTHER, 10, 15, mkRat 95 100, "current_maori_dict"⟩ ∧
    overlapsCond ⟨"Aroha Ngata", EntityType.PERSON_OTHER, 10, 21, mkRat 9 10, "current_relationship"⟩
      ⟨"Ngata", EntityType.PERSON_OTHER, 16, 21, mkRat 95 100, "current_maori_dict"⟩ ∧
    consolidate (maori_names "My mother Aroha Ngata called".toList
        ++ relationship_names "My mother Aroha Ngata called".toList) =
      [⟨"Aroha", EntityType.PERSON_OTHER, 10, 15, mkRat 95 100, "current_maori_dict"⟩,
       ⟨"Ngata", EntityType.PERSON_OTHER, 16, 21, mkRat 95 100, "current_maori_dict"⟩] := by
  decide

/-! ## C3: the relationship recognizer and IGNORECASE -/

/-- **C3** (code bug). The regex of `_relationship_names` is compiled with
`re.IGNORECASE`, which applies to the name classes `[A-Z][a-z]+` as well as to the
trigger word, so the emitted span need not be capitalized: on
`"My mother bob."` the recognizer emits the all-lowercase span `"bob"` —
contradicting the claim (and the source's own comment
"Pattern: relationship word + capitalized name(s)"). -/
theorem c3_relationship_ignorecase_bug :
    relationship_names "My mother bob.".toList =
      [⟨"bob", EntityType.PERSON_OTHER, 10, 13, mkRat 9 10, "current_relationship"⟩] ∧
    "bob".toList.all (fun c => c.isLower) = true := by
  decide

/-! ## C7: tag-decoder scenario -/

/-- **C7.** Label sequence `O, B-PER, I-PER, O, B-LOC` (ids `0,3,4,0,7`) over
char ranges `(-1,-1),(0,4),(5,10),(11,11),(12,20)` with an all-ones mask decodes to
exactly two spans: a person span 0–10 and a location span 12–20. -/
theorem c7_decoder_scenario :
    (decodeEntities "abcdefghijklmnopqrst".toList
        [(0, 1, -1, -1), (3, 1, 0, 4), (4, 1, 5, 10), (0, 1, 11, 11), (7, 1, 12, 20)]).map
      (fun e => (e.type_, e.start, e.end_)) = [("PER", 0, 10), ("LOC", 12, 20)] := by
  decide

/-! ## C10: a decoder span violating `0 ≤ start < end` -/

/-- **C10.** A begin-label on a structural token (char range `(-1,-1)`, e.g. the
leading start token) makes the decoder emit a span with `start = end = -1` and
empty text, so decoder outputs do not always satisfy `0 ≤ start < end`. -/
theorem c10_decoder_structural_begin :
    decodeEntities "Hello".toList [(3, 1, -1, -1)] = [⟨"PER", -1, -1, ""⟩] ∧
    ¬ (0 ≤ (-1 : Int) ∧ (-1 : Int) < (-1 : Int)) := by
  constructor
  · decide
  · decide

/-! ## Counterexamples for C2, C4 and C9 -/

set_option maxRecDepth 40000 in
/-- **C2** (counterexample). The round-trip fails for some `(text, vocabulary)`
pairs: when the bare word-boundary marker `"▁"` is itself a vocabulary piece and no
longer prefix of a word matches, the greedy match is the zero-width `"▁"`
(`actual_len = 0`), upon which line 55 of test_text_xlmr.py sets `remaining = ""`
and silently discards the rest of the word. On text `"ab"` with vocabulary
`{"▁": 5}` the non-structural ranges reconstruct `""`, not `"ab"`. -/
theorem c2_roundtrip_counterexample :
    reconstructTokens "ab".toList (tokenize vocabMarkerOnly "ab".toList).2.2 ≠
      "ab".toList.filter (fun c => !pyIsSpace c) := by
  decide

/-- **C4** (counterexample). Idempotence fails for input lists containing a span
that violates the Span invariant `start < end`: with the degenerate span
`(start 1, end 0)`, the first pass outputs spans out of start order, and the second
pass re-sorts them, so the output changes. -/
theorem c4_idempotence_counterexample :
    consolidate (consolidate
        [⟨"abcde", EntityType.PERSON_OTHER, 0, 5, mkRat 1 2, "s"⟩,
         ⟨"", EntityType.PERSON_OTHER, 1, 0, mkRat 1 2, "s"⟩,
         ⟨"bcdefgh", EntityType.PERSON_OTHER, 2, 9, mkRat 3 4, "s"⟩]) ≠
      consolidate
        [⟨"abcde", EntityType.PERSON_OTHER, 0, 5, mkRat 1 2, "s"⟩,
         ⟨"", EntityType.PERSON_OTHER, 1, 0, mkRat 1 2, "s"⟩,
         ⟨"bcdefgh", EntityType.PERSON_OTHER, 2, 9, mkRat 3 4, "s"⟩] := by
  decide

set_option maxRecDepth 40000 in
/-- **C9** (counterexample). The two tokenizers are not equivalent: `tokenize`
defaults the unknown id to 3 (`vocab.get("<unk>", 3)`) while `simple_tokenize`
defaults it to 0, so on a vocabulary without `"<unk>"` the fallback ids differ
(here on text `"a"`: input_ids `[0, 3, 2, …]` versus `[0, 0, 2, …]`). -/
theorem c9_tokenizers_counterexample :
    tokenize vocabEmpty "a".toList ≠ simple_tokenize vocabEmpty "a".toList 512 := by
  decide

/-! ## Lemmas about the consolidation sweep -/

theorem not_overlapsCond_iff (a b : DetectedEntity) :
    ¬ overlapsCond a b ↔ (a.end_ ≤ b.start ∨ b.end_ ≤ a.start) := by
  unfold overlapsCond
  exact not_not

theorem overlapScan_fst_mem (l : List DetectedEntity) (c : DetectedEntity) :
    (overlapScan c l).1 = c ∨ (overlapScan c l).1 ∈ l := by
  induction l generalizing c with
  | nil => simp [overlapScan]
  | cons o rest ih =>
    by_cases h : overlapsCond c o
    · simp only [overlapScan, if_pos h]
      generalize hcdef : (if c.confidence < o.confidence then o
          else if o.confidence = c.confidence ∧ c.text.length < o.text.length then o else c) = c'
      have hc' : c' = o ∨ c' = c := by rw [← hcdef]; split_ifs <;> simp
      rcases ih c' with h1 | h1
      · rcases hc' with h2 | h2 <;> rw [h1, h2]
        · exact Or.inr (List.mem_cons_self o rest)
        · exact Or.inl rfl
      · exact Or.inr (List.mem_cons_of_mem o h1)
    · simp only [overlapScan, if_neg h]
      rcases ih c with h1 | h1
      · exact Or.inl h1
      · exact Or.inr (List.mem_cons_of_mem o h1)

theorem overlapScan_sublist (l : List DetectedEntity) (c : DetectedEntity) :
    List.Sublist (overlapScan c l).2 l := by
  induction l generalizing c with
  | nil => simp [overlapScan]
  | cons o rest ih =>
    by_cases h : overlapsCond c o
    · simp only [overlapScan, if_pos h]
      exact List.Sublist.trans (ih _) (List.sublist_cons_self o rest)
    · simp only [overlapScan, if_neg h]
      exact List.Sublist.cons₂ o (ih c)

theorem overlapScan_frozen (l : List DetectedEntity) (c : DetectedEntity)
    (h : ∀ x ∈ l, ¬ overlapsCond c x) : overlapScan c l = (c, l) := by
  induction l with
  | nil => simp [overlapScan]
  | cons o rest ih =>
    have ho : ¬ overlapsCond c o := h o (List.mem_cons_self o rest)
    simp only [overlapScan, if_neg ho]
    rw [ih (fun x hx => h x (List.mem_cons_of_mem o hx))]

/-- Core invariant of the inner loop: every surviving (skipped) candidate does not
overlap the final `current`. -/
theorem overlapScan_no_overlap (l : List DetectedEntity) (c : DetectedEntity)
    (hsort : l.Pairwise fun a b => a.start ≤ b.start)
    (hcur : ∀ x ∈ l, c.start ≤ x.start) :
    ∀ x ∈ (overlapScan c l).2, ¬ overlapsCond (overlapScan c l).1 x := by
  induction l generalizing c with
  | nil => simp [overlapScan]
  | cons o rest ih =>
    rw [List.pairwise_cons] at hsort
    by_cases h : overlapsCond c o
    · simp only [overlapScan, if_pos h]
      generalize hcdef : (if c.confidence < o.confidence then o
          else if o.confidence = c.confidence ∧ c.text.length < o.text.length then o else c) = c'
      have hc' : c' = o ∨ c' = c := by rw [← hcdef]; split_ifs <;> simp
      apply ih c' hsort.2
      intro x hx
      rcases hc' with h2 | h2
      · rw [h2]; exact hsort.1 x hx
      · rw [h2]; exact hcur x (List.mem_cons_of_mem o hx)
    · have hno : c.end_ ≤ o.start ∨ o.end_ ≤ c.start := (not_overlapsCond_iff c o).mp h
      rcases hno with hB | hA
      · have hfr : ∀ x ∈ rest, ¬ overlapsCond c x := fun x hx =>
          (not_overlapsCond_iff c x).mpr (Or.inl (le_trans hB (hsort.1 x hx)))
        simp only [overlapScan, if_neg h, overlapScan_frozen rest c hfr]
        intro x hx
        rcases List.mem_cons.mp hx with rfl | hx'
        · exact h
        · exact hfr x hx'
      · simp only [overlapScan, if_neg h]
        intro x hx
        rcases List.mem_cons.mp hx with rfl | hx'
        · apply (not_overlapsCond_iff _ _).mpr
          right
          rcases overlapScan_fst_mem rest c with h1 | h1
          · rw [h1]; exact hA
          · exact le_trans hA (hcur _ (List.mem_cons_of_mem _ h1))
        · exact ih c hsort.2 (fun y hy => hcur y (List.mem_cons_of_mem _ hy)) x hx'

theorem overlapSweepAux_mem (fuel : Nat) (l : List DetectedEntity) :
    ∀ x ∈ overlapSweepAux fuel l, x ∈ l := by
  induction fuel generalizing l with
  | zero =>
    intro x hx
    cases l <;> simp [overlapSweepAux] at hx
  | succ fuel ih =>
    intro x hx
    cases l with
    | nil => simp [overlapSweepAux] at hx
    | cons e rest =>
      simp only [overlapSweepAux] at hx
      rcases List.mem_cons.mp hx with rfl | hx'
      · rcases overlapScan_fst_mem rest e with h1 | h1
        · rw [h1]; exact List.mem_cons_self _ _
        · exact List.mem_cons_of_mem _ h1
      · exact List.mem_cons_of_mem _ ((overlapScan_sublist rest e).mem (ih _ x hx'))

theorem overlapSweepAux_pairwise (fuel : Nat) (l : List DetectedEntity)
    (hfuel : l.length ≤ fuel) (hsort : l.Pairwise fun a b => a.start ≤ b.start) :
    (overlapSweepAux fuel l).Pairwise fun a b => a.end_ ≤ b.start ∨ b.end_ ≤ a.start := by
  induction fuel generalizing l with
  | zero =>
    have : l = [] := List.length_eq_zero.mp (Nat.le_zero.mp hfuel)
    subst this
    simp [overlapSweepAux]
  | succ fuel ih =>
    cases l with
    | nil => simp [overlapSweepAux]
    | cons e rest =>
      rw [List.pairwise_cons] at hsort
      simp only [overlapSweepAux]
      rw [List.pairwise_cons]
      constructor
      · intro x hx
        have hx2 := overlapSweepAux_mem fuel _ x hx
        exact (not_overlapsCond_iff _ _).mp
          (overlapScan_no_overlap rest e hsort.2 hsort.1 x hx2)
      · apply ih
        · have h1 := (overlapScan_sublist rest e).length_le
          simp only [List.length_cons] at hfuel
          omega
        · exact hsort.2.sublist (overlapScan_sublist rest e)

/-- **C1.** The overlap-removal sweep of the Consolidator returns a pairwise
non-overlapping list: for every input list and every pair of spans `a`, `b` in the
result, `a.end ≤ b.start` or `b.end ≤ a.start`. -/
theorem c1_remove_overlaps_no_overlap (l : List DetectedEntity) :
    (remove_overlaps l).Pairwise fun a b => a.end_ ≤ b.start ∨ b.end_ ≤ a.start := by
  unfold remove_overlaps overlapSweep
  apply overlapSweepAux_pairwise _ _ le_rfl
  exact (List.sorted_insertionSort entKeyLE l).imp (fun hab => by unfold entKeyLE at hab; omega)

/-! ## C5: tie-break determinism -/

/-- The sweep on a two-element list whose elements overlap and have equal
confidence keeps the longer-text element. -/
theorem overlapSweep_pair (x y : DetectedEntity) (hov : overlapsCond x y)
    (_hnlt : ¬ x.confidence < y.confidence) (heq : y.confidence = x.confidence) :
    overlapSweep [x, y] = [if x.text.length < y.text.length then y else x] := by
  by_cases hl : x.text.length < y.text.length
  · simp [overlapSweep, overlapSweepAux, overlapScan, hov, heq, hl]
  · simp [overlapSweep, overlapSweepAux, overlapScan, hov, heq, hl]

/-- **C5.** For every pair of overlapping candidate spans with equal confidence and
different text lengths, `_remove_overlaps` keeps the span with the longer text, and
it keeps that same span for both orderings of the two-element input list. -/
theorem c5_tie_break_longer_text (a b : DetectedEntity) (hov : overlapsCond a b)
    (hconf : a.confidence = b.confidence) (hlen : a.text.length ≠ b.text.length) :
    remove_overlaps [a, b] = [if b.text.length < a.text.length then a else b] ∧
    remove_overlaps [b, a] = [if b.text.length < a.text.length then a else b] := by
  have hovba : overlapsCond b a := fun hd => hov (Or.symm hd)
  have hnlt1 : ¬ a.confidence < b.confidence := by rw [hconf]; exact lt_irrefl _
  have hnlt2 : ¬ b.confidence < a.confidence := by rw [hconf]; exact lt_irrefl _
  have hsw : (if a.text.length < b.text.length then b else a) =
      (if b.text.length < a.text.length then a else b) := by
    rcases Nat.lt_trichotomy a.text.length b.text.length with h | h | h
    · rw [if_pos h, if_neg (by omega)]
    · exact absurd h hlen
    · rw [if_neg (by omega), if_pos h]
  constructor
  · by_cases hab : entKeyLE a b
    · have hsort : List.insertionSort entKeyLE [a, b] = [a, b] := by
        simp [List.insertionSort, List.orderedInsert, hab]
      rw [remove_overlaps, hsort, overlapSweep_pair a b hov hnlt1 hconf.symm, hsw]
    · have hsort : List.insertionSort entKeyLE [a, b] = [b, a] := by
        simp [List.insertionSort, List.orderedInsert, hab]
      rw [remove_overlaps, hsort, overlapSweep_pair b a hovba hnlt2 hconf]
  · by_cases hba : entKeyLE b a
    · have hsort : List.insertionSort entKeyLE [b, a] = [b, a] := by
        simp [List.insertionSort, List.orderedInsert, hba]
      rw [remove_overlaps, hsort, overlapSweep_pair b a hovba hnlt2 hconf]
    · have hsort : List.insertionSort entKeyLE [b, a] = [a, b] := by
        simp [List.insertionSort, List.orderedInsert, hba]
      rw [remove_overlaps, hsort, overlapSweep_pair a b hov hnlt1 hconf.symm, hsw]

/-- Witness for C5 at the concrete pair `wSpanA`, `wSpanB`. -/
theorem c5_witness :
    overlapsCond wSpanA wSpanB ∧ wSpanA.confidence = wSpanB.confidence ∧
    wSpanA.text.length ≠ wSpanB.text.length ∧
    remove_overlaps [wSpanA, wSpanB] =
      [if wSpanB.text.length < wSpanA.text.length then wSpanA else wSpanB] ∧
    remove_overlaps [wSpanB, wSpanA] =
      [if wSpanB.text.length < wSpanA.text.length then wSpanA else wSpanB] :=
  ⟨by decide, by decide, by decide,
    (c5_tie_break_longer_text wSpanA wSpanB (by decide) (by decide) (by decide)).1,
    (c5_tie_break_longer_text wSpanA wSpanB (by decide) (by decide) (by decide)).2⟩

/-! ## C8: inside-label handling of the tag decoder -/

/-- **C8.** The decoder's handling of inside-labels is type-blind and tolerant: for
any label id whose label starts with `"I-"`, (i) with an open span and a positive
`char_end`, the step extends the open span's end to `char_end` (and refreshes its
text), keeping the open span's type and start — without any check against the
inside-label's own entity type — and emits nothing; (ii) with no open span, the
step leaves the state `none` and emits nothing. -/
theorem c8_inside_label_type_blind (text : List Char) (cur : NerSpan) (pred : Nat)
    (cs ce : Int) (hI : strStarts (ID2LABEL pred) "I-" = true) :
    (0 < ce → nerStep text (some cur) pred cs ce =
      (some { type_ := cur.type_, start := cur.start, end_ := ce,
              text := String.mk (pySlice text cur.start ce) }, [])) ∧
    nerStep text none pred cs ce = (none, []) := by
  have hcases : ID2LABEL pred = "I-DATE" ∨ ID2LABEL pred = "I-PER" ∨
      ID2LABEL pred = "I-ORG" ∨ ID2LABEL pred = "I-LOC" := by
    match pred with
    | 0 | 1 | 3 | 5 | 7 => exact absurd hI (by decide)
    | 2 => exact Or.inl rfl
    | 4 => exact Or.inr (Or.inl rfl)
    | 6 => exact Or.inr (Or.inr (Or.inl rfl))
    | 8 => exact Or.inr (Or.inr (Or.inr rfl))
    | n + 9 =>
      rw [ID2LABEL, List.getD_eq_default] at hI
      · exact absurd hI (by decide)
      · simp
  rcases hcases with h | h | h | h <;>
    exact ⟨fun hce => by simp [nerStep, h, strStarts, hce], by simp [nerStep, h, strStarts]⟩

/-- Witness for C8 at `pred = 4` (`I-PER`) with an open `DATE` span. -/
theorem c8_witness :
    strStarts (ID2LABEL 4) "I-" = true ∧ (0 : Int) < 7 ∧
    (nerStep "abcdefgh".toList (some ⟨"DATE", 2, 5, "cde"⟩) 4 5 7 =
      (some { type_ := NerSpan.type_ ⟨"DATE", 2, 5, "cde"⟩,
              start := NerSpan.start ⟨"DATE", 2, 5, "cde"⟩, end_ := 7,
              text := String.mk (pySlice "abcdefgh".toList (NerSpan.start ⟨"DATE", 2, 5, "cde"⟩) 7) }, []) ∧
     nerStep "abcdefgh".toList none 4 5 7 = (none, [])) :=
  ⟨by decide, by decide,
    ⟨(c8_inside_label_type_blind "abcdefgh".toList ⟨"DATE", 2, 5, "cde"⟩ 4 5 7 (by decide)).1
      (by decide),
     (c8_inside_label_type_blind "abcdefgh".toList ⟨"DATE", 2, 5, "cde"⟩ 4 5 7 (by decide)).2⟩⟩

/-! ## C4: idempotence of the Consolidator -/

/-- On spans satisfying the Span invariant `start < end`, every survivor of the
inner loop starts at or after the final `current`'s end. -/
theorem overlapScan_sep (l : List DetectedEntity) (c : DetectedEntity)
    (hnd : ∀ x ∈ l, x.start < x.end_)
    (hsort : l.Pairwise fun a b => a.start ≤ b.start)
    (hcur : ∀ x ∈ l, c.start ≤ x.start) :
    ∀ x ∈ (overlapScan c l).2, (overlapScan c l).1.end_ ≤ x.start := by
  induction l generalizing c with
  | nil => simp [overlapScan]
  | cons o rest ih =>
    rw [List.pairwise_cons] at hsort
    by_cases h : overlapsCond c o
    · simp only [overlapScan, if_pos h]
      generalize hcdef : (if c.confidence < o.confidence then o
          else if o.confidence = c.confidence ∧ c.text.length < o.text.length then o else c) = c'
      have hc' : c' = o ∨ c' = c := by rw [← hcdef]; split_ifs <;> simp
      apply ih c' (fun x hx => hnd x (List.mem_cons_of_mem _ hx)) hsort.2
      intro x hx
      rcases hc' with h2 | h2
      · rw [h2]; exact hsort.1 x hx
      · rw [h2]; exact hcur x (List.mem_cons_of_mem o hx)
    · have hno := (not_overlapsCond_iff c o).mp h
      have hB : c.end_ ≤ o.start := by
        rcases hno with hB | hA
        · exact hB
        · have h1 := hnd o (List.mem_cons_self o rest)
          have h2 := hcur o (List.mem_cons_self o rest)
          omega
      have hfr : ∀ x ∈ rest, ¬ overlapsCond c x := fun x hx =>
        (not_overlapsCond_iff c x).mpr (Or.inl (le_trans hB (hsort.1 x hx)))
      simp only [overlapScan, if_neg h, overlapScan_frozen rest c hfr]
      intro x hx
      rcases List.mem_cons.mp hx with rfl | hx'
      · exact hB
      · exact le_trans hB (hsort.1 x hx')

theorem overlapSweepAux_sep (fuel : Nat) (l : List DetectedEntity)
    (hfuel : l.length ≤ fuel) (hnd : ∀ x ∈ l, x.start < x.end_)
    (hsort : l.Pairwise fun a b => a.start ≤ b.start) :
    (overlapSweepAux fuel l).Pairwise fun a b => a.end_ ≤ b.start := by
  induction fuel generalizing l with
  | zero =>
    have : l = [] := List.length_eq_zero.mp (Nat.le_zero.mp hfuel)
    subst this
    simp [overlapSweepAux]
  | succ fuel ih =>
    cases l with
    | nil => simp [overlapSweepAux]
    | cons e rest =>
      rw [List.pairwise_cons] at hsort
      simp only [overlapSweepAux]
      rw [List.pairwise_cons]
      constructor
      · intro x hx
        exact overlapScan_sep rest e (fun y hy => hnd y (List.mem_cons_of_mem _ hy))
          hsort.2 hsort.1 x (overlapSweepAux_mem fuel _ x hx)
      · apply ih
        · have h1 := (overlapScan_sublist rest e).length_le
          simp only [List.length_cons] at hfuel
          omega
        · exact fun y hy => hnd y (List.mem_cons_of_mem _ ((overlapScan_sublist rest e).mem hy))
        · exact hsort.2.sublist (overlapScan_sublist rest e)

/-- The sweep is the identity on a list already separated in order
(`a.end ≤ b.start` pairwise). -/
theorem overlapSweepAux_eq_self (fuel : Nat) (l : List DetectedEntity)
    (hfuel : l.length ≤ fuel)
    (hsep : l.Pairwise fun a b => a.end_ ≤ b.start) :
    overlapSweepAux fuel l = l := by
  induction fuel generalizing l with
  | zero =>
    have : l = [] := List.length_eq_zero.mp (Nat.le_zero.mp hfuel)
    subst this
    rfl
  | succ fuel ih =>
    cases l with
    | nil => rfl
    | cons e rest =>
      rw [List.pairwise_cons] at hsep
      have hfr : ∀ x ∈ rest, ¬ overlapsCond e x := fun x hx =>
        (not_overlapsCond_iff e x).mpr (Or.inl (hsep.1 x hx))
      simp only [overlapSweepAux, overlapScan_frozen rest e hfr]
      rw [ih rest (by simp only [List.length_cons] at hfuel; omega) hsep.2]

theorem dedupAux_sublist (seen : List (String × Int × Int)) (l : List DetectedEntity) :
    List.Sublist (dedupAux seen l) l := by
  induction l generalizing seen with
  | nil => simp [dedupAux]
  | cons e rest ih =>
    by_cases h : entKey e ∈ seen
    · simp only [dedupAux, if_pos h]
      exact List.Sublist.trans (ih seen) (List.sublist_cons_self e rest)
    · simp only [dedupAux, if_neg h]
      exact List.Sublist.cons₂ e (ih _)

/-- The deduplication output has pairwise distinct keys, none of them in `seen`. -/
theorem dedupAux_keys (seen : List (String × Int × Int)) (l : List DetectedEntity) :
    (dedupAux seen l).Pairwise (fun a b => entKey a ≠ entKey b) ∧
    ∀ x ∈ dedupAux seen l, entKey x ∉ seen := by
  induction l generalizing seen with
  | nil => simp [dedupAux]
  | cons e rest ih =>
    by_cases h : entKey e ∈ seen
    · simp only [dedupAux, if_pos h]
      exact ih seen
    · simp only [dedupAux, if_neg h]
      obtain ⟨ihp, ihm⟩ := ih (entKey e :: seen)
      refine ⟨List.pairwise_cons.mpr ⟨?_, ihp⟩, ?_⟩
      · intro x hx heq
        exact ihm x hx (by rw [← heq]; exact List.mem_cons_self _ _)
      · intro x hx
        rcases List.mem_cons.mp hx with rfl | hx'
        · exact h
        · exact fun hm => ihm x hx' (List.mem_cons_of_mem _ hm)

/-- Deduplication is the identity on a list with pairwise distinct keys avoiding `seen`. -/
theorem dedupAux_eq_self (seen : List (String × Int × Int)) (l : List DetectedEntity)
    (h1 : ∀ x ∈ l, entKey x ∉ seen)
    (h2 : l.Pairwise fun a b => entKey a ≠ entKey b) :
    dedupAux seen l = l := by
  induction l generalizing seen with
  | nil => rfl
  | cons e rest ih =>
    rw [List.pairwise_cons] at h2
    have he : entKey e ∉ seen := h1 e (List.mem_cons_self _ _)
    simp only [dedupAux, if_neg he]
    have hrec : dedupAux (entKey e :: seen) rest = rest := by
      apply ih
      · intro x hx hm
        rcases List.mem_cons.mp hm with heq | hm'
        · exact h2.1 x hx heq.symm
        · exact h1 x (List.mem_cons_of_mem _ hx) hm'
      · exact h2.2
    rw [hrec]

/-- **C4** (amended). On every input list of spans satisfying the Span invariant
`0 ≤ start < end`, the Consolidator is idempotent: applying
`_remove_overlaps` followed by `_deduplicate` to its own output returns that
output unchanged. -/
theorem c4_consolidate_idempotent (l : List DetectedEntity)
    (h : ∀ e ∈ l, 0 ≤ e.start ∧ e.start < e.end_) :
    consolidate (consolidate l) = consolidate l := by
  have hmemS : ∀ x ∈ l.insertionSort entKeyLE, x ∈ l := fun x hx =>
    (List.mem_insertionSort entKeyLE).mp hx
  have hsortS : (l.insertionSort entKeyLE).Pairwise fun a b => a.start ≤ b.start :=
    (List.sorted_insertionSort entKeyLE l).imp (fun hab => by unfold entKeyLE at hab; omega)
  have hndS : ∀ x ∈ l.insertionSort entKeyLE, x.start < x.end_ := fun x hx =>
    (h x (hmemS x hx)).2
  have hsepR : (remove_overlaps l).Pairwise fun a b => a.end_ ≤ b.start := by
    unfold remove_overlaps overlapSweep
    exact overlapSweepAux_sep _ _ le_rfl hndS hsortS
  have hmemR : ∀ x ∈ remove_overlaps l, x ∈ l := by
    intro x hx
    unfold remove_overlaps overlapSweep at hx
    exact hmemS x (overlapSweepAux_mem _ _ x hx)
  have hsub : List.Sublist (consolidate l) (remove_overlaps l) := dedupAux_sublist [] _
  have hsepO : (consolidate l).Pairwise fun a b => a.end_ ≤ b.start := hsepR.sublist hsub
  have hndO : ∀ x ∈ consolidate l, x.start < x.end_ := fun x hx =>
    (h x (hmemR x (hsub.mem hx))).2
  have hsorted : (consolidate l).Pairwise entKeyLE := by
    refine hsepO.imp_of_mem ?_
    intro a b ha hb hab
    have := hndO a ha
    unfold entKeyLE
    omega
  have hkeys : (consolidate l).Pairwise fun a b => entKey a ≠ entKey b :=
    (dedupAux_keys [] (remove_overlaps l)).1
  show deduplicate (overlapSweep ((consolidate l).insertionSort entKeyLE)) = consolidate l
  rw [List.Sorted.insertionSort_eq hsorted]
  unfold overlapSweep
  rw [overlapSweepAux_eq_self _ _ le_rfl hsepO]
  exact dedupAux_eq_self [] _ (fun x _ => List.not_mem_nil _) hkeys

/-- Witness for C4 at the concrete list `[wSpanA, wSpanB]`. -/
theorem c4_witness :
    (∀ e ∈ [wSpanA, wSpanB], 0 ≤ e.start ∧ e.start < e.end_) ∧
    consolidate (consolidate [wSpanA, wSpanB]) = consolidate [wSpanA, wSpanB] :=
  ⟨by decide, c4_consolidate_idempotent [wSpanA, wSpanB] (by decide)⟩

/-! ## C2: tokenizer offset round-trip — helper lemmas -/

theorem greedyLookup_bounds (vocab : Vocab) (prefixed : List Char) :
    ∀ n li, greedyLookup vocab prefixed n = some li → 1 ≤ li.1 ∧ li.1 ≤ n := by
  intro n
  induction n with
  | zero => intro li h; simp [greedyLookup] at h
  | succ n ih =>
    intro li h
    simp only [greedyLookup] at h
    cases hv : vocab (String.mk (prefixed.take (n + 1))) with
    | some id =>
      rw [hv] at h
      cases h
      exact ⟨by omega, le_rfl⟩
    | none =>
      rw [hv] at h
      have := ih li h
      omega

theorem greedyLookup_vocab (vocab : Vocab) (prefixed : List Char) :
    ∀ n li, greedyLookup vocab prefixed n = some li →
      vocab (String.mk (prefixed.take li.1)) = some li.2 := by
  intro n
  induction n with
  | zero => intro li h; simp [greedyLookup] at h
  | succ n ih =>
    intro li h
    simp only [greedyLookup] at h
    cases hv : vocab (String.mk (prefixed.take (n + 1))) with
    | some id =>
      rw [hv] at h
      cases h
      exact hv
    | none =>
      rw [hv] at h
      exact ih li h

theorem tiling_nonneg :
    ∀ (toks : List (Nat × Int × Int)) (o e : Nat), Tiling toks o e →
      ∀ t ∈ toks, 0 ≤ t.2.1 := by
  intro toks
  induction toks with
  | nil => intro o e _ t ht; simp at ht
  | cons x ts ih =>
    intro o e hT t ht
    obtain ⟨m, h1, _, _, _, h5⟩ := hT
    rcases List.mem_cons.mp ht with rfl | ht'
    · rw [h1]; exact Int.natCast_nonneg o
    · exact ih m e h5 t ht'

theorem pySlice_natCast (text : List Char) (a b : Nat) (ha : a ≤ text.length)
    (hb : b ≤ text.length) :
    pySlice text (a : Int) (b : Int) = (text.drop a).take (b - a) := by
  unfold pySlice
  dsimp only
  rw [if_neg (by omega), if_neg (by omega)]
  rw [min_eq_left (by omega), min_eq_left (by omega)]
  rw [Int.toNat_sub, Int.toNat_natCast]

theorem take_drop_append (l : List Char) (o m e : Nat) (h1 : o ≤ m) (h2 : m ≤ e) :
    (l.drop o).take (m - o) ++ (l.drop m).take (e - m) = (l.drop o).take (e - o) := by
  have hd : l.drop m = (l.drop o).drop (m - o) := by
    rw [List.drop_drop]
    congr 1
    omega
  rw [hd, ← List.take_add]
  congr 1
  omega

/-- The slices of a tiling of `[o, e)` concatenate to the characters of `[o, e)`. -/
theorem tiling_flatten (text : List Char) :
    ∀ (toks : List (Nat × Int × Int)) (o e : Nat), Tiling toks o e → e ≤ text.length →
      ((toks.map fun t => pySlice text t.2.1 t.2.2).flatten) = (text.drop o).take (e - o) := by
  intro toks
  induction toks with
  | nil =>
    intro o e hT hle
    have : o = e := hT
    subst this
    simp
  | cons t ts ih =>
    intro o e hT hle
    obtain ⟨m, h1, h2, h3, h4, h5⟩ := hT
    simp only [List.map_cons, List.flatten_cons]
    rw [h1, h2, pySlice_natCast text o m (by omega) (by omega), ih m e h5 hle,
      take_drop_append text o m e (by omega) (by omega)]

/-- Specification of the inner word loop of `tokenize`: when the bare marker is not
a vocabulary piece (so no greedy match is zero-width) and the token budget cannot
be reached, the emitted tokens tile the word's character range `[off, off+|rem|)`
exactly, and the returned count is the entry count plus the number of tokens. -/
theorem tokenizeWordAux_spec (vocab : Vocab) (u : Nat)
    (hmk : vocab (String.mk [markerChar]) = none) :
    ∀ (fuel : Nat) (rem : List Char) (off nTok : Nat) (first : Bool),
      rem.length ≤ fuel → nTok + rem.length ≤ 510 →
      Tiling (tokenizeWordAux vocab u fuel rem off first nTok).1 off (off + rem.length) ∧
      (tokenizeWordAux vocab u fuel rem off first nTok).2
        = nTok + (tokenizeWordAux vocab u fuel rem off first nTok).1.length ∧
      (tokenizeWordAux vocab u fuel rem off first nTok).1.length ≤ rem.length := by
  intro fuel
  induction fuel with
  | zero =>
    intro rem off nTok first hf hb
    have h0 : rem = [] := List.eq_nil_of_length_eq_zero (Nat.le_zero.mp hf)
    subst h0
    exact ⟨rfl, rfl, le_rfl⟩
  | succ fuel ih =>
    intro rem off nTok first hf hb
    cases rem with
    | nil => exact ⟨rfl, rfl, le_rfl⟩
    | cons c rest =>
      simp only [List.length_cons] at hf hb
      have hbud : ¬ (MAX_LEN - 1 ≤ nTok + 1) := by
        simp only [MAX_LEN]
        omega
      cases hgl : greedyLookup vocab (if first then markerChar :: c :: rest else c :: rest)
          (if first then markerChar :: c :: rest else c :: rest).length with
      | none =>
        simp only [tokenizeWordAux, hgl, if_neg hbud]
        obtain ⟨ht, hc, hl⟩ := ih rest (off + 1) (nTok + 1) false (by omega) (by omega)
        have he : (off + 1) + rest.length = off + (c :: rest).length := by
          simp only [List.length_cons]
          omega
        refine ⟨⟨off + 1, rfl, rfl, by omega, ?_, he ▸ ht⟩, ?_, ?_⟩
        · simp only [List.length_cons]
          omega
        · simp only [List.length_cons]
          omega
        · simp only [List.length_cons]
          omega
      | some li =>
        have hg1 := greedyLookup_bounds vocab _ _ li hgl
        have hg2 := greedyLookup_vocab vocab _ _ li hgl
        have hact : 1 ≤ (if first then li.1 - 1 else li.1) ∧
            (if first then li.1 - 1 else li.1) ≤ rest.length + 1 := by
          cases first with
          | true =>
            have hg1a : 1 ≤ li.1 ∧ li.1 ≤ (markerChar :: c :: rest).length := hg1
            have hg2a : vocab (String.mk ((markerChar :: c :: rest).take li.1)) = some li.2 := hg2
            simp only [List.length_cons] at hg1a
            have h2 : 2 ≤ li.1 := by
              rcases Nat.lt_or_ge li.1 2 with hlt | hge
              · have h1 : li.1 = 1 := by omega
                rw [h1] at hg2a
                simp only [List.take_succ_cons, List.take_zero] at hg2a
                rw [hmk] at hg2a
                cases hg2a
              · exact hge
            show 1 ≤ li.1 - 1 ∧ li.1 - 1 ≤ rest.length + 1
            omega
          | false =>
            have hg1a : 1 ≤ li.1 ∧ li.1 ≤ (c :: rest).length := hg1
            simp only [List.length_cons] at hg1a
            show 1 ≤ li.1 ∧ li.1 ≤ rest.length + 1
            omega
        simp only [tokenizeWordAux, hgl, if_neg hbud]
        rw [if_pos (by omega : 0 < (if first then li.1 - 1 else li.1))]
        obtain ⟨ht, hc, hl⟩ := ih ((c :: rest).drop (if first then li.1 - 1 else li.1))
          (off + (if first then li.1 - 1 else li.1)) (nTok + 1) false
          (by simp only [List.length_drop, List.length_cons]; omega)
          (by simp only [List.length_drop, List.length_cons]; omega)
        have he : (off + (if first then li.1 - 1 else li.1))
            + ((c :: rest).drop (if first then li.1 - 1 else li.1)).length
            = off + (c :: rest).length := by
          simp only [List.length_drop, List.length_cons]
          omega
        refine ⟨⟨off + (if first then li.1 - 1 else li.1), rfl, rfl, by omega, ?_, he ▸ ht⟩,
          ?_, ?_⟩
        · simp only [List.length_cons]
          omega
        · simp only [List.length_cons, List.length_drop] at hc hl ⊢
          omega
        · simp only [List.length_cons, List.length_drop] at hl ⊢
          omega

theorem take_length_takeWhile {α : Type} (p : α → Bool) (l : List α) :
    l.take (l.takeWhile p).length = l.takeWhile p := by
  induction l with
  | nil => rfl
  | cons a tl ih =>
    by_cases h : p a
    · simp [List.takeWhile_cons, h, ih]
    · simp [List.takeWhile_cons, h]

theorem dropWhile_eq_drop {α : Type} (p : α → Bool) (l : List α) :
    l.dropWhile p = l.drop (l.takeWhile p).length := by
  induction l with
  | nil => rfl
  | cons a tl ih =>
    by_cases h : p a
    · simp [List.dropWhile_cons, List.takeWhile_cons, h, ih]
    · simp [List.dropWhile_cons, List.takeWhile_cons, h]

theorem filter_replicate_neg {α : Type} (n : Nat) (x : α) (p : α → Bool)
    (h : p x = false) : (List.replicate n x).filter p = [] := by
  induction n with
  | zero => rfl
  | succ n ih => simp [List.replicate_succ, List.filter_cons, h, ih]

/-- Specification of the outer loop of `tokenize`: under the same conditions, the
emitted tokens' slices concatenate to the non-whitespace content of `text` from
position `i` on. -/
theorem tokenizeLoopAux_spec (vocab : Vocab) (u : Nat)
    (hmk : vocab (String.mk [markerChar]) = none) (text : List Char) :
    ∀ (fuel i nTok : Nat), text.length - i ≤ fuel → i ≤ text.length →
      nTok + (text.length - i) ≤ 510 →
      (∀ t ∈ (tokenizeLoopAux vocab u text fuel i nTok).1, 0 ≤ t.2.1) ∧
      ((tokenizeLoopAux vocab u text fuel i nTok).1.map
          fun t => pySlice text t.2.1 t.2.2).flatten
        = (text.drop i).filter (fun c => !pyIsSpace c) ∧
      (tokenizeLoopAux vocab u text fuel i nTok).2
        = nTok + (tokenizeLoopAux vocab u text fuel i nTok).1.length ∧
      (tokenizeLoopAux vocab u text fuel i nTok).1.length ≤ text.length - i := by
  intro fuel
  induction fuel with
  | zero =>
    intro i nTok hf hi hb
    have hieq : i = text.length := by omega
    subst hieq
    refine ⟨by simp [tokenizeLoopAux], ?_, rfl, by simp [tokenizeLoopAux]⟩
    simp [tokenizeLoopAux, List.drop_length]
  | succ fuel ih =>
    intro i nTok hf hi hb
    by_cases hlt : i < text.length
    case neg =>
      have hieq : i = text.length := by omega
      subst hieq
      refine ⟨by simp [tokenizeLoopAux, dif_neg hlt], ?_, by simp [tokenizeLoopAux, dif_neg hlt], by simp [tokenizeLoopAux, dif_neg hlt]⟩
      simp [tokenizeLoopAux, dif_neg hlt, List.drop_length]
    case pos =>
      by_cases hsp : pyIsSpace (text.get ⟨i, hlt⟩)
      · simp only [tokenizeLoopAux, dif_pos hlt, if_pos hsp]
        obtain ⟨h1, h2, h3, h4⟩ := ih (i + 1) nTok (by omega) (by omega) (by omega)
        refine ⟨h1, ?_, h3, by omega⟩
        rw [h2, List.drop_eq_getElem_cons hlt, List.filter_cons]
        simp only [List.get_eq_getElem] at hsp
        simp [hsp]
      · simp only [tokenizeLoopAux, dif_pos hlt, if_neg hsp]
        have hwpos : 1 ≤ ((text.drop i).takeWhile (fun c => !pyIsSpace c)).length := by
          rw [List.drop_eq_getElem_cons hlt, List.takeWhile_cons]
          simp only [List.get_eq_getElem] at hsp
          rw [if_pos (by simp [hsp])]
          simp
        have hwlen : ((text.drop i).takeWhile (fun c => !pyIsSpace c)).length
            ≤ text.length - i := by
          have h5 := (List.takeWhile_sublist (l := text.drop i) (fun c => !pyIsSpace c)).length_le
          simpa using h5
        obtain ⟨hT, hcnt, hlen⟩ := tokenizeWordAux_spec vocab u hmk
          ((text.drop i).takeWhile (fun c => !pyIsSpace c)).length
          ((text.drop i).takeWhile (fun c => !pyIsSpace c)) i nTok true le_rfl (by omega)
        have hT' : Tiling (tokenizeWord vocab u
            ((text.drop i).takeWhile (fun c => !pyIsSpace c)) i true nTok).1 i
            (i + ((text.drop i).takeWhile (fun c => !pyIsSpace c)).length) := hT
        have hcnt' : (tokenizeWord vocab u
            ((text.drop i).takeWhile (fun c => !pyIsSpace c)) i true nTok).2
            = nTok + (tokenizeWord vocab u
              ((text.drop i).takeWhile (fun c => !pyIsSpace c)) i true nTok).1.length := hcnt
        have hlen' : (tokenizeWord vocab u
            ((text.drop i).takeWhile (fun c => !pyIsSpace c)) i true nTok).1.length
            ≤ ((text.drop i).takeWhile (fun c => !pyIsSpace c)).length := hlen
        have hbud : ¬ (MAX_LEN - 1 ≤ (tokenizeWord vocab u
            ((text.drop i).takeWhile (fun c => !pyIsSpace c)) i true nTok).2) := by
          rw [hcnt']
          simp only [MAX_LEN]
          omega
        rw [if_neg hbud]
        obtain ⟨h1, h2, h3, h4⟩ := ih
          (i + ((text.drop i).takeWhile (fun c => !pyIsSpace c)).length)
          (tokenizeWord vocab u ((text.drop i).takeWhile (fun c => !pyIsSpace c)) i true nTok).2
          (by omega) (by omega) (by rw [hcnt']; omega)
        refine ⟨?_, ?_, ?_, ?_⟩
        · intro t ht
          rcases List.mem_append.mp ht with hmem | hmem
          · exact tiling_nonneg _ _ _ hT' t hmem
          · exact h1 t hmem
        · rw [List.map_append, List.flatten_append,
            tiling_flatten text _ _ _ hT' (by omega), h2]
          have htake : (i + ((text.drop i).takeWhile (fun c => !pyIsSpace c)).length) - i
              = ((text.drop i).takeWhile (fun c => !pyIsSpace c)).length := by omega
          rw [htake, take_length_takeWhile]
          conv_rhs => rw [← List.takeWhile_append_dropWhile (fun c => !pyIsSpace c) (text.drop i)]
          rw [List.filter_append]
          congr 1
          · exact (List.filter_eq_self.mpr
              (fun a ha => List.mem_takeWhile_imp (p := fun c => !pyIsSpace c) ha)).symm
          · congr 1
            rw [dropWhile_eq_drop, List.drop_drop]
        · simp only [List.length_append]
          rw [h3, hcnt']
          omega
        · simp only [List.length_append]
          omega

/-- **C2** (amended). Provided the bare word-boundary marker `"▁"` is not itself a
vocabulary piece (so the greedy match is never zero-width) and the text is short
enough that the `MAX_LEN - 1` token budget can never be reached (length ≤ 509
suffices), concatenating `text[char_start:char_end]` over all non-structural tokens
(`char_start ≥ 0`) of `tokenize`'s token-to-char map reconstructs the text's
non-whitespace content. -/
theorem c2_tokenize_roundtrip (vocab : Vocab) (text : List Char)
    (hmk : vocab (String.mk [markerChar]) = none) (hlen : text.length ≤ 509) :
    reconstructTokens text (tokenize vocab text).2.2
      = text.filter fun c => !pyIsSpace c := by
  obtain ⟨h1, h2, h3, h4⟩ := tokenizeLoopAux_spec vocab ((vocab "<unk>").getD 3) hmk text
    text.length 0 1 (by omega) (by omega) (by omega)
  simp only [Nat.sub_zero] at h4
  unfold reconstructTokens tokenize tokenizeLoop
  dsimp only
  simp only [Nat.sub_zero]
  rw [List.take_of_length_le (by
    simp only [List.length_append, List.length_cons, List.length_map,
      List.length_replicate, List.length_nil, MAX_LEN]
    omega)]
  have hfM : (List.filter (fun p => decide (0 ≤ p.1))
        (List.map (fun t => t.2)
          (tokenizeLoopAux vocab ((vocab "<unk>").getD 3) text text.length 0 1).1))
      = List.map (fun t => t.2)
          (tokenizeLoopAux vocab ((vocab "<unk>").getD 3) text text.length 0 1).1 := by
    apply List.filter_eq_self.mpr
    intro a ha
    obtain ⟨t, htmem, rfl⟩ := List.mem_map.mp ha
    simpa using h1 t htmem
  simp only [List.filter_append, List.filter_cons]
  rw [filter_replicate_neg _ _ _ (by decide)]
  simp only [show (decide ((0 : Int) ≤ ((-1 : Int), (-1 : Int)).1)) = false from by decide]
  simp only [Bool.false_eq_true, if_false, List.filter_nil, List.append_nil, hfM]
  rw [List.map_map]
  exact h2

/-- Witness for C2 at the concrete vocabulary `vocabSmall` and text `"ab cd"`. -/
theorem c2_witness :
    vocabSmall (String.mk [markerChar]) = none ∧ "ab cd".toList.length ≤ 509 ∧
    reconstructTokens "ab cd".toList (tokenize vocabSmall "ab cd".toList).2.2
      = "ab cd".toList.filter (fun c => !pyIsSpace c) :=
  ⟨by decide, by decide,
    c2_tokenize_roundtrip vocabSmall "ab cd".toList (by decide) (by decide)⟩

/-! ## C9: equivalence of the two tokenizers — helper lemmas -/

theorem simpleWordAux_length_le (vocab : Vocab) (u : Nat) :
    ∀ (fuel : Nat) (rem : List Char) (off : Int) (first : Bool),
      (simpleWordAux vocab u fuel rem off first).length ≤ rem.length := by
  intro fuel
  induction fuel with
  | zero =>
    intro rem off first
    cases rem <;> simp [simpleWordAux]
  | succ fuel ih =>
    intro rem off first
    cases rem with
    | nil => simp [simpleWordAux]
    | cons c rest =>
      cases hgl : greedyLookup vocab (if first then markerChar :: c :: rest else c :: rest)
          (if first then markerChar :: c :: rest else c :: rest).length with
      | none =>
        simp only [simpleWordAux, hgl, List.length_cons]
        have := ih rest (off + 1) false
        simpa using this
      | some li =>
        simp only [simpleWordAux, hgl]
        by_cases hpos : 0 < (if first then li.1 - 1 else li.1)
        · rw [if_pos hpos]
          have := ih ((c :: rest).drop (if first then li.1 - 1 else li.1))
            (off + ((if first then li.1 - 1 else li.1) : Nat)) false
          simp only [List.length_cons, List.length_drop] at this ⊢
          omega
        · rw [if_neg hpos]
          simp

/-- The two inner word loops agree (token list and count) whenever the budget
cannot be reached: `tokenize`'s extra per-token budget check never fires. -/
theorem tokenizeWordAux_eq_simple (vocab : Vocab) (u : Nat) :
    ∀ (fuel : Nat) (rem : List Char) (off nTok : Nat) (first : Bool),
      rem.length ≤ fuel → nTok + rem.length ≤ 510 →
      tokenizeWordAux vocab u fuel rem off first nTok
        = (simpleWordAux vocab u fuel rem (off : Int) first,
           nTok + (simpleWordAux vocab u fuel rem (off : Int) first).length) := by
  intro fuel
  induction fuel with
  | zero =>
    intro rem off nTok first hf hb
    have h0 : rem = [] := List.eq_nil_of_length_eq_zero (Nat.le_zero.mp hf)
    subst h0
    rfl
  | succ fuel ih =>
    intro rem off nTok first hf hb
    cases rem with
    | nil => rfl
    | cons c rest =>
      simp only [List.length_cons] at hf hb
      have hbud : ¬ (MAX_LEN - 1 ≤ nTok + 1) := by
        simp only [MAX_LEN]
        omega
      cases hgl : greedyLookup vocab (if first then markerChar :: c :: rest else c :: rest)
          (if first then markerChar :: c :: rest else c :: rest).length with
      | none =>
        simp only [tokenizeWordAux, simpleWordAux, hgl]
        rw [if_neg hbud]
        have hcast : (off : Int) + 1 = ((off + 1 : Nat) : Int) := by push_cast; ring
        rw [hcast, ih rest (off + 1) (nTok + 1) false (by omega) (by omega)]
        simp only [Prod.mk.injEq, List.length_cons]
        exact ⟨trivial, by omega⟩
      | some li =>
        simp only [tokenizeWordAux, simpleWordAux, hgl]
        rw [if_neg hbud]
        have hcast : (off : Int) + ((if first then li.1 - 1 else li.1 : Nat) : Int)
            = ((off + (if first then li.1 - 1 else li.1) : Nat) : Int) := by
          push_cast
          ring
        by_cases hpos : 0 < (if first then li.1 - 1 else li.1)
        · rw [if_pos hpos, if_pos hpos, hcast,
            ih ((c :: rest).drop (if first then li.1 - 1 else li.1))
              (off + (if first then li.1 - 1 else li.1)) (nTok + 1) false
              (by simp only [List.length_drop, List.length_cons]; omega)
              (by simp only [List.length_drop, List.length_cons]; omega)]
          simp only [Prod.mk.injEq, List.length_cons]
          exact ⟨trivial, by omega⟩
        · rw [if_neg hpos, if_neg hpos, hcast]
          simp only [Prod.mk.injEq, List.length_cons, List.length_nil]

/-- `wordsSpecAux` does not depend on the fuel once the fuel is sufficient. -/
theorem wordsSpecAux_fuel_irrel (text : List Char) :
    ∀ (fuel fuel' i : Nat), text.length - i ≤ fuel → text.length - i ≤ fuel' →
      wordsSpecAux text fuel i = wordsSpecAux text fuel' i := by
  intro fuel
  induction fuel with
  | zero =>
    intro fuel' i hf hf'
    have hi : ¬ i < text.length := by omega
    cases fuel' with
    | zero => rfl
    | succ fuel' => simp only [wordsSpecAux, dif_neg hi]
  | succ fuel ih =>
    intro fuel' i hf hf'
    cases fuel' with
    | zero =>
      have hi : ¬ i < text.length := by omega
      simp only [wordsSpecAux, dif_neg hi]
    | succ fuel' =>
      by_cases hi : i < text.length
      · simp only [wordsSpecAux, dif_pos hi]
        by_cases hsp : pyIsSpace (text.get ⟨i, hi⟩)
        · rw [if_pos hsp, if_pos hsp]
          exact ih fuel' (i + 1) (by omega) (by omega)
        · rw [if_neg hsp, if_neg hsp]
          have hwpos : 1 ≤ ((text.drop i).takeWhile (fun c => !pyIsSpace c)).length := by
            rw [List.drop_eq_getElem_cons hi, List.takeWhile_cons]
            simp only [List.get_eq_getElem] at hsp
            rw [if_pos (by simp [hsp])]
            simp
          rw [ih fuel' (i + ((text.drop i).takeWhile (fun c => !pyIsSpace c)).length)
            (by omega) (by omega)]
      · simp only [wordsSpecAux, dif_neg hi]

/-- The word-splitting loop of `simple_tokenize` computes the shared word
decomposition: the first conjunct is the empty-state invariant, the second the
mid-word invariant (a word open since position `s`, content `cur`). -/
theorem buildWordsAux_spec (text : List Char) :
    ∀ (fuel i : Nat), fuel = text.length - i → i ≤ text.length →
      (buildWordsAux text fuel i (-1) [] = wordsSpecAux text fuel i) ∧
      (∀ (s : Int) (cur : List Char), cur ≠ [] → s ≠ -1 →
        buildWordsAux text fuel i s cur
          = (cur ++ (text.drop i).takeWhile (fun c => !pyIsSpace c), s,
              ((i + ((text.drop i).takeWhile (fun c => !pyIsSpace c)).length : Nat) : Int))
            :: wordsSpecAux text
                (text.length - (i + ((text.drop i).takeWhile (fun c => !pyIsSpace c)).length))
                (i + ((text.drop i).takeWhile (fun c => !pyIsSpace c)).length)) := by
  intro fuel
  induction fuel with
  | zero =>
    intro i hf hi
    have hieq : i = text.length := by omega
    subst hieq
    constructor
    · rfl
    · intro s cur hcur _
      simp only [buildWordsAux, if_neg hcur]
      rw [List.drop_length]
      simp only [List.takeWhile_nil, List.append_nil, List.length_nil, Nat.add_zero,
        Nat.sub_self]
      rfl
  | succ fuel ih =>
    intro i hf hi
    have hlt : i < text.length := by omega
    have hrec := ih (i + 1) (by omega) (by omega)
    by_cases hsp : pyIsSpace (text.get ⟨i, hlt⟩)
    · -- whitespace at i
      have htw : (text.drop i).takeWhile (fun c => !pyIsSpace c) = [] := by
        rw [List.drop_eq_getElem_cons hlt, List.takeWhile_cons]
        simp only [List.get_eq_getElem] at hsp
        rw [if_neg (by simp [hsp])]
      constructor
      · simp only [buildWordsAux, dif_pos hlt, if_pos hsp, if_pos rfl, if_true]
        simp only [wordsSpecAux, dif_pos hlt, if_pos hsp]
        exact hrec.1
      · intro s cur hcur hs
        simp only [buildWordsAux, dif_pos hlt, if_pos hsp, if_neg hcur]
        rw [htw]
        simp only [List.append_nil, List.length_nil, Nat.add_zero]
        have hws : wordsSpecAux text (text.length - i) i = wordsSpecAux text fuel (i + 1) := by
          have hfl : text.length - i = fuel + 1 := by omega
          rw [hfl]
          simp only [wordsSpecAux, dif_pos hlt, if_pos hsp]
        rw [hws, hrec.1]
    · -- non-whitespace at i
      have htw : (text.drop i).takeWhile (fun c => !pyIsSpace c)
          = text.get ⟨i, hlt⟩ :: (text.drop (i + 1)).takeWhile (fun c => !pyIsSpace c) := by
        rw [List.drop_eq_getElem_cons hlt, List.takeWhile_cons]
        simp only [List.get_eq_getElem] at hsp ⊢
        rw [if_pos (by simp [hsp])]
      constructor
      · simp only [buildWordsAux, dif_pos hlt, if_neg hsp, if_pos rfl, if_true,
          List.nil_append]
        simp only [wordsSpecAux, dif_pos hlt, if_neg hsp]
        rw [hrec.2 ((i : Nat) : Int) [text.get ⟨i, hlt⟩] (by simp) (by
          intro hc
          have : (0 : Int) ≤ (i : Nat) := Int.natCast_nonneg i
          omega), htw]
        simp only [List.singleton_append, List.length_cons]
        have harith : i + 1 + ((text.drop (i + 1)).takeWhile (fun c => !pyIsSpace c)).length
            = i + (((text.drop (i + 1)).takeWhile (fun c => !pyIsSpace c)).length + 1) := by
          omega
        rw [harith]
        congr 1
        exact wordsSpecAux_fuel_irrel text _ _ _ (by omega) (by omega)
      · intro s cur hcur hs
        simp only [buildWordsAux, dif_pos hlt, if_neg hsp, if_neg hs]
        rw [hrec.2 s (cur ++ [text.get ⟨i, hlt⟩]) (by simp) hs, htw]
        simp only [List.append_assoc, List.singleton_append, List.length_cons]
        have harith : i + 1 + ((text.drop (i + 1)).takeWhile (fun c => !pyIsSpace c)).length
            = i + (((text.drop (i + 1)).takeWhile (fun c => !pyIsSpace c)).length + 1) := by
          omega
        rw [harith]

/-- The outer loops of the two tokenizers agree whenever the budget cannot be
reached (`tokenize` checks it per token and per word, `simple_tokenize` only per
word; under the budget neither check ever fires). -/
theorem tokenizeLoopAux_eq_simpleOuter (vocab : Vocab) (u : Nat) (text : List Char) :
    ∀ (fuel i nTok : Nat), text.length - i ≤ fuel → i ≤ text.length →
      nTok + (text.length - i) ≤ 510 →
      tokenizeLoopAux vocab u text fuel i nTok
        = simpleOuter vocab u 512 (wordsSpecAux text fuel i) nTok := by
  intro fuel
  induction fuel with
  | zero =>
    intro i nTok hf hi hb
    rfl
  | succ fuel ih =>
    intro i nTok hf hi hb
    by_cases hlt : i < text.length
    case neg =>
      simp only [tokenizeLoopAux, wordsSpecAux, dif_neg hlt]
      rfl
    case pos =>
      by_cases hsp : pyIsSpace (text.get ⟨i, hlt⟩)
      · simp only [tokenizeLoopAux, wordsSpecAux, dif_pos hlt, if_pos hsp]
        exact ih (i + 1) nTok (by omega) (by omega) (by omega)
      · have hwpos : 1 ≤ ((text.drop i).takeWhile (fun c => !pyIsSpace c)).length := by
          rw [List.drop_eq_getElem_cons hlt, List.takeWhile_cons]
          simp only [List.get_eq_getElem] at hsp
          rw [if_pos (by simp [hsp])]
          simp
        have hwlen : ((text.drop i).takeWhile (fun c => !pyIsSpace c)).length
            ≤ text.length - i := by
          have h5 := (List.takeWhile_sublist (l := text.drop i) (fun c => !pyIsSpace c)).length_le
          simpa using h5
        have hlenle := simpleWordAux_length_le vocab u
          ((text.drop i).takeWhile (fun c => !pyIsSpace c)).length
          ((text.drop i).takeWhile (fun c => !pyIsSpace c)) ((i : Nat) : Int) true
        simp only [tokenizeLoopAux, wordsSpecAux, dif_pos hlt, if_neg hsp, simpleOuter,
          simpleWord, tokenizeWord]
        rw [tokenizeWordAux_eq_simple vocab u
          ((text.drop i).takeWhile (fun c => !pyIsSpace c)).length
          ((text.drop i).takeWhile (fun c => !pyIsSpace c)) i nTok true le_rfl (by omega)]
        dsimp only
        rw [if_neg (by
          simp only [MAX_LEN]
          omega), if_neg (by omega)]
        rw [ih (i + ((text.drop i).takeWhile (fun c => !pyIsSpace c)).length)
          (nTok + (simpleWordAux vocab u
            ((text.drop i).takeWhile (fun c => !pyIsSpace c)).length
            ((text.drop i).takeWhile (fun c => !pyIsSpace c)) ((i : Nat) : Int) true).length)
          (by omega) (by omega) (by omega)]

/-- **C9** (amended). Provided the vocabulary contains `"<unk>"` (so the two
functions' different unknown-id defaults never apply) and the text is short enough
that neither tokenizer's budget check can fire (length ≤ 509 suffices),
`tokenize` of test_text_xlmr.py and `simple_tokenize` of test_xlmr_coreml.py with
`max_length = 512` return identical `(input_ids, attention_mask, token_to_char)`
triples. -/
theorem c9_tokenizers_agree (vocab : Vocab) (text : List Char)
    (hunk : (vocab "<unk>").isSome) (hlen : text.length ≤ 509) :
    tokenize vocab text = simple_tokenize vocab text 512 := by
  have hud : (vocab "<unk>").getD 0 = (vocab "<unk>").getD 3 := by
    obtain ⟨v, hv⟩ := Option.isSome_iff_exists.mp hunk
    rw [hv]
    rfl
  have hres : tokenizeLoopAux vocab ((vocab "<unk>").getD 3) text (text.length - 0) 0 1
      = simpleOuter vocab ((vocab "<unk>").getD 0) 512 (buildWordsAux text text.length 0 (-1) []) 1 := by
    rw [(buildWordsAux_spec text text.length 0 (by omega) (by omega)).1, hud]
    exact tokenizeLoopAux_eq_simpleOuter vocab ((vocab "<unk>").getD 3) text
      (text.length - 0) 0 1 (by omega) (by omega) (by omega)
  unfold tokenize simple_tokenize tokenizeLoop buildWords
  dsimp only
  rw [hres]
  simp only [MAX_LEN]

/-- Witness for C9 at the concrete vocabulary `vocabSmall` and text `"ab cd"`. -/
theorem c9_witness :
    (vocabSmall "<unk>").isSome = true ∧ "ab cd".toList.length ≤ 509 ∧
    tokenize vocabSmall "ab cd".toList = simple_tokenize vocabSmall "ab cd".toList 512 :=
  ⟨by decide, by decide,
    c9_tokenizers_agree vocabSmall "ab cd".toList (by decide) (by decide)⟩
